import Mathlib

set_option maxHeartbeats 1000000

/-! Shallow embedding of the cvastrophoto calibration core: raw.py
    (dark-frame subtraction, entropy-driven dark-weight search, frame
    accumulator) and rops/tracking/grid.py (grid registration).  Images are
    modelled as flat lists of pixel values.  The source is Python 2
    (it uses xrange), so integer division by the / operator is floor
    division and numpy fixed-width arithmetic wraps; both are made
    explicit below. -/

/-- Unsigned 32-bit wraparound, as in numpy uint32 arithmetic. -/
def wrap32 (n : Nat) : Nat := n % 4294967296

/-- Weighted dark pixel, as in Raw.denoise: the dark pixel is upcast to
    uint32, multiplied by k_num and floor-divided by k_denom. -/
def darkWeighed (d kNum kDenom : Nat) : Nat := wrap32 (d * kNum) / kDenom

/-- Clamp applied in Raw.denoise: numpy.minimum(dark_weighed, raw_image),
    taken pixel-wise against the current light pixel. -/
def clampedDark (l d kNum kDenom : Nat) : Nat := min (darkWeighed d kNum kDenom) l

/-- One dark-frame subtraction step of Raw.denoise (raw_image -= dark_weighed
    after the clamp). -/
def denoiseStep (img dark : List Nat) (kNum kDenom : Nat) : List Nat :=
  List.zipWith (fun l d => l - clampedDark l d kNum kDenom) img dark

/-- Raw.denoise: sequentially subtract each weighted dark frame produced by
    the weight search. -/
def denoise (light : List Nat) (ws : List (List Nat × Nat × Nat)) : List Nat :=
  ws.foldl (fun img w => denoiseStep img w.1 w.2.1 w.2.2) light

/-- Residuals of one subtraction step computed in unbounded signed integers,
    used to state that the unsigned subtraction never wraps around. -/
def denoiseStepInt (img dark : List Nat) (kNum kDenom : Nat) : List Int :=
  List.zipWith (fun (l d : Nat) => (l : Int) - (clampedDark l d kNum kDenom : Int)) img dark

/-- RawAccumulator state: an optional running sum (None until the first
    frame arrives) and the number of accumulated frames. -/
structure RawAccumulator where
  accum : Option (List Nat)
  num_images : Nat

/-- RawAccumulator.__init__. -/
def RawAccumulator.init : RawAccumulator := { accum := none, num_images := 0 }

/-- RawAccumulator.__iadd__: the first frame is copied (upcast to uint32),
    later frames are added into the running sum with uint32 wraparound. -/
def RawAccumulator.iadd (a : RawAccumulator) (raw : List Nat) : RawAccumulator :=
  match a.accum with
  | none => { accum := some (raw.map wrap32), num_images := 1 }
  | some acc =>
      { accum := some (List.zipWith (fun x y => wrap32 (x + y)) acc raw),
        num_images := a.num_images + 1 }

/-- RawAccumulator.average: self.accum / self.num_images.  The source runs
    under Python 2 with a numpy uint32 array, where the / operator performs
    integer floor division, so the result is an integer array. -/
def RawAccumulator.average (a : RawAccumulator) : Option (List Nat) :=
  a.accum.map (fun acc => acc.map (fun x => x / a.num_images))

/-- Modelled from the spec's words for comparison with average: the exact
    rational quotient sum / count of each accumulated pixel. -/
def RawAccumulator.averageExact (a : RawAccumulator) : Option (List ℚ) :=
  a.accum.map (fun acc => acc.map (fun (x : Nat) => (x : ℚ) / (a.num_images : ℚ)))

/-- Maximum of a list of naturals, as accum.max() in RawAccumulator.raw_image
    (defaulting to 0 on an empty buffer). -/
def listMax : List Nat → Nat
  | [] => 0
  | x :: xs => xs.foldl max x

/-- Shift computation of RawAccumulator.raw_image: while maxval > 65535,
    increment shift and floor-halve maxval. -/
def computeShift (m : Nat) : Nat :=
  if 65535 < m then computeShift (m / 2) + 1 else 0
termination_by m
decreasing_by exact Nat.div_lt_self (by omega) (by omega)

/-- RawAccumulator.raw_image: right-shift the running sum by the computed
    shift and truncate to uint16 (astype keeps the low 16 bits). -/
def RawAccumulator.raw_image (a : RawAccumulator) : Option (List Nat) :=
  a.accum.map (fun acc =>
    acc.map (fun x => (x >>> computeShift (listMax acc)) % 65536))

theorem foldl_max_le_nat (l : List Nat) :
    ∀ a : Nat, a ≤ l.foldl max a ∧ ∀ x ∈ l, x ≤ l.foldl max a := by
  induction l with
  | nil => intro a; exact ⟨le_refl a, by intro x hx; cases hx⟩
  | cons y ys ih =>
      intro a
      have h1 := (ih (max a y)).1
      constructor
      · exact le_trans (le_max_left a y) h1
      · intro x hx
        rcases List.mem_cons.mp hx with h | h
        · subst h; exact le_trans (le_max_right a x) h1
        · exact (ih (max a y)).2 x h

theorem le_listMax (l : List Nat) (x : Nat) (h : x ∈ l) : x ≤ listMax l := by
  cases l with
  | nil => cases h
  | cons y ys =>
      rcases List.mem_cons.mp h with h1 | h1
      · subst h1; exact (foldl_max_le_nat ys x).1
      · exact (foldl_max_le_nat ys y).2 x h1

theorem computeShift_le (m : Nat) : m >>> computeShift m ≤ 65535 := by
  induction m using Nat.strong_induction_on with
  | _ m ih =>
      rw [computeShift]
      by_cases h : 65535 < m
      · rw [if_pos h]
        have hm : m / 2 < m := Nat.div_lt_self (by omega) (by omega)
        have := ih (m / 2) hm
        rw [Nat.shiftRight_eq_div_pow] at this ⊢
        rw [pow_succ, Nat.mul_comm, ← Nat.div_div_eq_div_mul]
        exact this
      · rw [if_neg h]
        simpa [Nat.shiftRight_eq_div_pow] using Nat.not_lt.mp h

theorem computeShift_min (m : Nat) :
    ∀ s : Nat, m >>> s ≤ 65535 → computeShift m ≤ s := by
  induction m using Nat.strong_induction_on with
  | _ m ih =>
      intro s hs
      rw [computeShift]
      by_cases h : 65535 < m
      · rw [if_pos h]
        cases s with
        | zero =>
            simp [Nat.shiftRight_eq_div_pow] at hs
            omega
        | succ k =>
            have hm : m / 2 < m := Nat.div_lt_self (by omega) (by omega)
            have hk : (m / 2) >>> k ≤ 65535 := by
              rw [Nat.shiftRight_eq_div_pow] at hs ⊢
              rw [Nat.div_div_eq_div_mul, show 2 * 2 ^ k = 2 ^ (k + 1) by ring]
              exact hs
            have := ih (m / 2) hm k hk
            omega
      · rw [if_neg h]; omega

/-- C6: in Raw.denoise the weighted dark value actually subtracted is clamped
    to the current light pixel, so every residual of a dark-frame subtraction
    step, computed in unbounded signed arithmetic, is non-negative, and the
    unsigned subtraction performed by the code coincides with it (no
    wraparound ever occurs). -/
theorem denoise_no_wraparound (img dark : List Nat) (kNum kDenom : Nat) :
    (∀ r ∈ denoiseStepInt img dark kNum kDenom, 0 ≤ r)
    ∧ denoiseStep img dark kNum kDenom
        = (denoiseStepInt img dark kNum kDenom).map Int.toNat := by
  induction img generalizing dark with
  | nil => cases dark <;> simp [denoiseStepInt, denoiseStep]
  | cons l ls ih =>
      cases dark with
      | nil => simp [denoiseStepInt, denoiseStep]
      | cons d ds =>
          obtain ⟨ih1, ih2⟩ := ih ds
          have hc : clampedDark l d kNum kDenom ≤ l := min_le_right _ _
          constructor
          · intro r hr
            rw [denoiseStepInt, List.zipWith_cons_cons] at hr
            rcases List.mem_cons.mp hr with h | h
            · subst h; omega
            · exact ih1 r h
          · rw [denoiseStep, denoiseStepInt, List.zipWith_cons_cons,
              List.zipWith_cons_cons, List.map_cons]
            rw [denoiseStep, denoiseStepInt] at ih2
            rw [← ih2]
            congr 1
            omega

theorem denoise_no_wraparound_witness :
    ((0 : Int) ∈ denoiseStepInt [10] [100] 3 2) ∧ (0 : Int) ≤ 0 :=
  ⟨by decide, (denoise_no_wraparound [10] [100] 3 2).1 0 (by decide)⟩

/-- C4 counterexample: after accumulating the frames [1] and [2], average
    returns the floor quotient pixel 1, which is not the exact quotient 3/2;
    so average is an integer-truncated quotient, not the exact floating-point
    quotient claimed. -/
theorem average_truncates_counterexample :
    (((RawAccumulator.init.iadd [1]).iadd [2]).average.map
        (fun l => l.map (fun x => (x : ℚ))))
      ≠ ((RawAccumulator.init.iadd [1]).iadd [2]).averageExact := by
  have h1 : ((RawAccumulator.init.iadd [1]).iadd [2]).average = some [1] := by
    decide
  have h2 : ((RawAccumulator.init.iadd [1]).iadd [2]).averageExact
      = some [(3 : ℚ) / 2] := by
    norm_num [wrap32, RawAccumulator.iadd, RawAccumulator.init,
      RawAccumulator.averageExact]
  rw [h1, h2]
  intro h
  have h0 := Option.some.inj h
  have h3 : ((1 : Nat) : ℚ) = (3 : ℚ) / 2 := by
    simpa using congrArg (fun l => l.headI) h0
  norm_num at h3

/-- C4 (amended): average returns, pixel-wise, the integer floor quotient of
    the running sum by the frame count (Python 2 integer division), which is
    exactly the floor of the rational quotient sum / count. -/
theorem average_is_floor_of_exact (a : RawAccumulator) :
    a.average = a.averageExact.map (fun l => l.map (fun q => Nat.floor q)) := by
  rcases ha : a.accum with _ | acc
  · simp [RawAccumulator.average, RawAccumulator.averageExact, ha]
  · rw [RawAccumulator.average, RawAccumulator.averageExact, ha]
    simp only [Option.map_some']
    congr 1
    rw [List.map_map]
    apply List.map_congr_left
    intro x _
    simp only [Function.comp_apply]
    exact (@Nat.floor_div_nat ℚ _ _ x a.num_images).symm

/-- C10: an accumulator that has accumulated no frames (count zero) returns
    None from both average and raw_image rather than dividing by zero. -/
theorem accumulator_empty_returns_none (raws : List (List Nat))
    (h : (raws.foldl RawAccumulator.iadd RawAccumulator.init).num_images = 0) :
    (raws.foldl RawAccumulator.iadd RawAccumulator.init).average = none
    ∧ (raws.foldl RawAccumulator.iadd RawAccumulator.init).raw_image = none := by
  have hlen : ∀ (l : List (List Nat)) (a : RawAccumulator),
      (l.foldl RawAccumulator.iadd a).num_images = a.num_images + l.length
      ∨ 0 < (l.foldl RawAccumulator.iadd a).num_images := by
    intro l
    induction l with
    | nil => intro a; left; simp
    | cons r rs ih =>
        intro a
        rcases ih (a.iadd r) with h1 | h1
        · rcases ha : a.accum with _ | acc
          · right
            rw [List.foldl_cons]
            have : (a.iadd r).num_images = 1 := by
              simp [RawAccumulator.iadd, ha]
            rcases h1 with h1
            simp [List.foldl_cons] at h1 ⊢
            omega
          · left
            rw [List.foldl_cons, h1]
            have : (a.iadd r).num_images = a.num_images + 1 := by
              simp [RawAccumulator.iadd, ha]
            rw [this]; simp; omega
        · right
          rw [List.foldl_cons]
          exact h1
  cases raws with
  | nil =>
      simp [RawAccumulator.init, RawAccumulator.average, RawAccumulator.raw_image]
  | cons r rs =>
      exfalso
      rcases hlen (r :: rs) RawAccumulator.init with h1 | h1
      · rw [h] at h1
        simp [RawAccumulator.init] at h1
      · omega

theorem accumulator_empty_returns_none_witness :
    (([] : List (List Nat)).foldl RawAccumulator.iadd RawAccumulator.init).num_images = 0
    ∧ (([] : List (List Nat)).foldl RawAccumulator.iadd RawAccumulator.init).average = none :=
  ⟨by decide, (accumulator_empty_returns_none [] (by decide)).1⟩

/-- C5: raw_image never exceeds the 16-bit ceiling 65535, the uint16 cast
    loses nothing (each shifted pixel is already below 65536), and the shift
    applied is the minimum number of halvings after which the maximum
    accumulated pixel fits under the ceiling. -/
theorem raw_image_bounded_min_shift (a : RawAccumulator) (acc : List Nat)
    (h : a.accum = some acc) :
    (∀ out, a.raw_image = some out → ∀ x ∈ out, x ≤ 65535)
    ∧ a.raw_image = some (acc.map (fun x => x >>> computeShift (listMax acc)))
    ∧ (listMax acc) >>> (computeShift (listMax acc)) ≤ 65535
    ∧ (∀ s, (listMax acc) >>> s ≤ 65535 → computeShift (listMax acc) ≤ s) := by
  have hall : ∀ x ∈ acc, x >>> computeShift (listMax acc) ≤ 65535 := by
    intro x hx
    have h1 : x ≤ listMax acc := le_listMax acc x hx
    have h2 := computeShift_le (listMax acc)
    rw [Nat.shiftRight_eq_div_pow] at h2 ⊢
    exact le_trans (Nat.div_le_div_right h1) h2
  refine ⟨?_, ?_, computeShift_le (listMax acc), computeShift_min (listMax acc)⟩
  · intro out hout x hx
    rw [RawAccumulator.raw_image, h, Option.map_some'] at hout
    have hout2 : out
        = acc.map (fun y => (y >>> computeShift (listMax acc)) % 65536) :=
      (Option.some.inj hout).symm
    subst hout2
    rw [List.mem_map] at hx
    obtain ⟨y, _, hy2⟩ := hx
    subst hy2
    have h1 : (y >>> computeShift (listMax acc)) % 65536 < 65536 :=
      Nat.mod_lt _ (by omega)
    omega
  · rw [RawAccumulator.raw_image, h, Option.map_some']
    congr 1
    apply List.map_congr_left
    intro x hx
    exact Nat.mod_eq_of_lt (by have := hall x hx; omega)

theorem raw_image_bounded_min_shift_witness :
    (RawAccumulator.mk (some [200000]) 1).accum = some [200000]
    ∧ (∀ out, (RawAccumulator.mk (some [200000]) 1).raw_image = some out →
        ∀ x ∈ out, x ≤ 65535) :=
  ⟨rfl, (raw_image_bounded_min_shift (RawAccumulator.mk (some [200000]) 1)
    [200000] rfl).1⟩

/-- Maximum of a list of rationals, as shift_mags.max() in
    GridTrackingRop.detect (defaulting to 0 on an empty array). -/
def maxOf : List ℚ → ℚ
  | [] => 0
  | x :: xs => xs.foldl max x

theorem foldl_max_le_q (l : List ℚ) :
    ∀ a : ℚ, a ≤ l.foldl max a ∧ ∀ x ∈ l, x ≤ l.foldl max a := by
  induction l with
  | nil => intro a; exact ⟨le_refl a, by intro x hx; cases hx⟩
  | cons y ys ih =>
      intro a
      have h1 := (ih (max a y)).1
      constructor
      · exact le_trans (le_max_left a y) h1
      · intro x hx
        rcases List.mem_cons.mp hx with h | h
        · subst h; exact le_trans (le_max_right a x) h1
        · exact (ih (max a y)).2 x h

theorem le_maxOf (l : List ℚ) (x : ℚ) (h : x ∈ l) : x ≤ maxOf l := by
  cases l with
  | nil => cases h
  | cons y ys =>
      rcases List.mem_cons.mp h with h1 | h1
      · subst h1; exact (foldl_max_le_q ys x).1
      · exact (foldl_max_le_q ys y).2 x h1

theorem foldl_max_mem_q (l : List ℚ) :
    ∀ a : ℚ, l.foldl max a = a ∨ l.foldl max a ∈ l := by
  induction l with
  | nil => intro a; left; rfl
  | cons y ys ih =>
      intro a
      rw [List.foldl_cons]
      rcases ih (max a y) with h | h
      · rcases max_choice a y with h2 | h2
        · left; rw [h, h2]
        · right; rw [h, h2]; exact List.mem_cons_self y ys
      · right; exact List.mem_cons_of_mem y h

theorem maxOf_mem (l : List ℚ) (h : l ≠ []) : maxOf l ∈ l := by
  cases l with
  | nil => exact absurd rfl h
  | cons y ys =>
      rw [maxOf]
      rcases foldl_max_mem_q ys y with h1 | h1
      · rw [h1]; exact List.mem_cons_self y ys
      · exact List.mem_cons_of_mem y h1

/-- Insertion step of an ascending sort, used to model numpy.median's
    internal sort. -/
def insertSorted (x : ℚ) : List ℚ → List ℚ
  | [] => [x]
  | y :: ys => if x ≤ y then x :: y :: ys else y :: insertSorted x ys

/-- Ascending sort of a list of rationals. -/
def sortAsc (l : List ℚ) : List ℚ := l.foldr insertSorted []

/-- numpy.median of a one-dimensional array: sort ascending, take the middle
    element for odd length and the mean of the two middle elements for even
    length.  The empty case (numpy would produce nan) defaults to 0; the
    detect loop only takes medians of arrays of length at least 4. -/
def npMedian (l : List ℚ) : ℚ :=
  if l.length = 0 then 0
  else if l.length % 2 = 1 then (sortAsc l).getD (l.length / 2) 0
  else ((sortAsc l).getD (l.length / 2 - 1) 0 + (sortAsc l).getD (l.length / 2) 0) / 2

/-- Outlier removal step of GridTrackingRop.detect:
    translations[shift_mags < shift_mags.max()] keeps exactly the samples
    whose residual is strictly below the maximum residual. -/
def removeWorst {S : Type} (f : S → ℚ) (ts : List S) : List S :=
  ts.filter (fun s => decide (f s < maxOf (ts.map f)))

theorem removeWorst_length_lt {S : Type} (f : S → ℚ) (ts : List S)
    (h : ts ≠ []) : (removeWorst f ts).length < ts.length := by
  rw [removeWorst]
  rw [List.length_filter_lt_length_iff_exists]
  have hmem : maxOf (ts.map f) ∈ ts.map f := by
    apply maxOf_mem
    intro hn
    exact h (List.map_eq_nil_iff.mp hn)
  rw [List.mem_map] at hmem
  obtain ⟨s0, hs0, hfs0⟩ := hmem
  exact ⟨s0, hs0, by simp [hfs0]⟩

/-- Robust transform-fit loop of GridTrackingRop.detect, lines 153-179 of
    grid.py, parameterized by the opaque least-squares estimator fit
    (skimage.transform.estimate_transform) and the per-sample squared
    residual res of a fitted transform.  Mirrors the Python control flow for
    any configured limit below the sentinel 100 that initializes
    median_shift_mag: fit, take the median residual, drop all samples at the
    maximum residual while the median exceeds the limit and at least 3
    samples would remain, and accept only below-limit medians with strictly
    more than 4 samples. -/
def fitLoop {S T : Type} (fit : List S → T) (res : T → S → ℚ) (limit : ℚ)
    (ts : List S) : Option (T × List S) :=
  if h : 3 < ts.length then
    if limit < npMedian (ts.map (res (fit ts))) then
      if 3 ≤ (removeWorst (res (fit ts)) ts).length then
        fitLoop fit res limit (removeWorst (res (fit ts)) ts)
      else none
    else if ts.length ≤ 4 then none else some (fit ts, ts)
  else none
termination_by ts.length
decreasing_by
  exact removeWorst_length_lt _ ts (by intro hn; subst hn; simp at h)

theorem fitLoop_some_inv {S T : Type} (fit : List S → T) (res : T → S → ℚ)
    (limit : ℚ) :
    ∀ (n : Nat) (ts : List S), ts.length ≤ n →
      ∀ tr rem, fitLoop fit res limit ts = some (tr, rem) →
        tr = fit rem ∧ 4 < rem.length
          ∧ npMedian (rem.map (res (fit rem))) ≤ limit := by
  intro n
  induction n with
  | zero =>
      intro ts hlen tr rem heq
      rw [fitLoop, dif_neg (by omega)] at heq
      exact absurd heq (by simp)
  | succ n ih =>
      intro ts hlen tr rem heq
      rw [fitLoop] at heq
      by_cases h3 : 3 < ts.length
      · rw [dif_pos h3] at heq
        by_cases hm : limit < npMedian (ts.map (res (fit ts)))
        · rw [if_pos hm] at heq
          by_cases hr : 3 ≤ (removeWorst (res (fit ts)) ts).length
          · rw [if_pos hr] at heq
            have hlt : (removeWorst (res (fit ts)) ts).length < ts.length :=
              removeWorst_length_lt _ ts (by intro hn; subst hn; simp at h3)
            exact ih _ (by omega) tr rem heq
          · rw [if_neg hr] at heq
            exact absurd heq (by simp)
        · rw [if_neg hm] at heq
          by_cases h4 : ts.length ≤ 4
          · rw [if_pos h4] at heq
            exact absurd heq (by simp)
          · rw [if_neg h4] at heq
            obtain ⟨htr, hrem⟩ := Prod.mk.inj (Option.some.inj heq)
            subst hrem
            subst htr
            exact ⟨rfl, by omega, not_lt.mp hm⟩
      · rw [dif_neg h3] at heq
        exact absurd heq (by simp)

/-- C1 (amended): the robust fit loop accepts, returning the transform
    fitted on the remaining samples, exactly when it ends with the median
    residual within the limit and strictly more than 4 samples remaining;
    a loop end with exactly 4 samples and an in-limit median is still
    rejected, as is any run in which the limit is never met or the inner
    guard leaves fewer than 3 samples. -/
theorem fitLoop_accept_characterization {S T : Type} (fit : List S → T)
    (res : T → S → ℚ) (limit : ℚ) (ts : List S) :
    (∀ tr rem, fitLoop fit res limit ts = some (tr, rem) →
        tr = fit rem ∧ 4 < rem.length
          ∧ npMedian (rem.map (res (fit rem))) ≤ limit)
    ∧ (4 < ts.length → npMedian (ts.map (res (fit ts))) ≤ limit →
        fitLoop fit res limit ts = some (fit ts, ts)) := by
  constructor
  · intro tr rem heq
    exact fitLoop_some_inv fit res limit ts.length ts le_rfl tr rem heq
  · intro h4 hm
    rw [fitLoop, dif_pos (by omega), if_neg (not_lt.mpr hm), if_neg (by omega)]

theorem fitLoop_accept_characterization_witness :
    4 < ([0, 1, 2, 3, 4] : List Nat).length
    ∧ npMedian (([0, 1, 2, 3, 4] : List Nat).map (fun _ => (0 : ℚ))) ≤ 2
    ∧ fitLoop (fun (_ : List Nat) => ()) (fun _ _ => (0 : ℚ)) 2 [0, 1, 2, 3, 4]
        = some ((), [0, 1, 2, 3, 4]) := by
  refine ⟨by decide, by norm_num [npMedian, sortAsc, insertSorted], ?_⟩
  exact (fitLoop_accept_characterization (fun (_ : List Nat) => ())
    (fun _ _ => (0 : ℚ)) 2 [0, 1, 2, 3, 4]).2 (by decide)
    (by norm_num [npMedian, sortAsc, insertSorted])

/-- C1 counterexample: with exactly 4 samples and every residual 0 the loop
    ends at once with the median residual 0 within the default limit 2 and 4
    samples remaining, yet detect returns the rejection sentinel None, since
    the final check requires strictly more than 4 samples. -/
theorem fitLoop_four_samples_rejected :
    npMedian (([0, 1, 2, 3] : List Nat).map (fun _ => (0 : ℚ))) ≤ 2
    ∧ ([0, 1, 2, 3] : List Nat).length = 4
    ∧ fitLoop (fun (_ : List Nat) => ()) (fun _ _ => (0 : ℚ)) 2 [0, 1, 2, 3]
        = none := by
  refine ⟨by norm_num [npMedian, sortAsc, insertSorted], by decide, ?_⟩
  rw [fitLoop, dif_pos (by decide),
    if_neg (by norm_num [npMedian, sortAsc, insertSorted]), if_pos (by decide)]

/-- C2 (amended): an outlier-removal round keeps exactly the samples whose
    residual is strictly below the maximum residual, so it removes every
    sample tied for the largest residual: at least one sample is always
    removed, and exactly one sample is removed precisely when a single
    sample attains the maximum. -/
theorem removeWorst_all_max_removed {S : Type} (f : S → ℚ) (ts : List S)
    (h : ts ≠ []) :
    (removeWorst f ts).length < ts.length
    ∧ (∀ s ∈ ts, (s ∈ removeWorst f ts ↔ f s < maxOf (ts.map f)))
    ∧ (ts.countP (fun s => decide (f s = maxOf (ts.map f))) = 1 →
        (removeWorst f ts).length + 1 = ts.length) := by
  refine ⟨removeWorst_length_lt f ts h, ?_, ?_⟩
  · intro s hs
    rw [removeWorst, List.mem_filter]
    simp [hs]
  · intro hcount
    have hsplit := List.length_eq_countP_add_countP
      (fun s => decide (f s < maxOf (ts.map f))) ts
    have hlen : (removeWorst f ts).length
        = ts.countP (fun s => decide (f s < maxOf (ts.map f))) := by
      rw [removeWorst, ← List.countP_eq_length_filter]
    have hcompl : ts.countP
          (fun a => decide ¬ (decide (f a < maxOf (ts.map f)) = true))
        = ts.countP (fun s => decide (f s = maxOf (ts.map f))) := by
      apply List.countP_congr
      intro s hs
      have hle : f s ≤ maxOf (ts.map f) :=
        le_maxOf _ _ (List.mem_map_of_mem f hs)
      simp only [decide_eq_true_eq, decide_not, Bool.not_eq_true']
      constructor
      · intro hnlt
        have h2 : ¬ f s < maxOf (ts.map f) := by
          simpa using hnlt
        exact le_antisymm hle (not_lt.mp h2)
      · intro heq
        simp [heq]
    rw [hcompl] at hsplit
    omega

theorem removeWorst_all_max_removed_witness :
    (([0, 1, 2, 3] : List Nat) ≠ [])
    ∧ (removeWorst (fun (s : Nat) => if s = 0 then (9 : ℚ) else 0)
        [0, 1, 2, 3]).length < ([0, 1, 2, 3] : List Nat).length :=
  ⟨by decide, (removeWorst_all_max_removed
    (fun (s : Nat) => if s = 0 then (9 : ℚ) else 0) [0, 1, 2, 3] (by decide)).1⟩

/-- C2 counterexample: on six samples with residuals 3,3,3,3,9,9 the median
    residual 3 exceeds the limit 2, and the removal step discards both
    samples tied at the maximal residual 9, keeping 4 samples (so the loop
    refits on them): an iteration of the robust fit loop can remove more
    than one sample. -/
theorem removeWorst_tie_removes_two :
    2 < npMedian (([0, 1, 2, 3, 4, 5] : List Nat).map
        (fun s => if 4 ≤ s then (9 : ℚ) else 3))
    ∧ removeWorst (fun (s : Nat) => if 4 ≤ s then (9 : ℚ) else 3)
        [0, 1, 2, 3, 4, 5] = [0, 1, 2, 3]
    ∧ ([0, 1, 2, 3, 4, 5] : List Nat).length
        - (removeWorst (fun (s : Nat) => if 4 ≤ s then (9 : ℚ) else 3)
            [0, 1, 2, 3, 4, 5]).length = 2 := by
  have hrw : removeWorst (fun (s : Nat) => if 4 ≤ s then (9 : ℚ) else 3)
      [0, 1, 2, 3, 4, 5] = [0, 1, 2, 3] := by
    norm_num [removeWorst, maxOf, List.filter]
  refine ⟨?_, hrw, ?_⟩
  · norm_num [npMedian, sortAsc, insertSorted]
  · rw [hrw]
    decide

/-- Cache lookup-or-fill of GridTrackingRop.detect (grid.py lines 104-141):
    the tracking cache maps a frame identity key to the per-tracker
    measurement data (translations plus raw and preview shapes).  On a miss
    the tracker pool is mapped over the trackers (runTrackers) and the
    result is stored under the key; on a hit the cached value is reused.
    Either way the downstream processing postFit (copy, rescale to pattern
    units, robust transform fit) is applied to that value.  The returned
    Bool records whether the tracker pool was invoked. -/
def gridDetect {K A R : Type} [DecidableEq K] (runTrackers : Unit → A)
    (postFit : A → R) (key : K) (cache : List (K × A)) :
    Bool × R × List (K × A) :=
  match cache.lookup key with
  | some cached => (false, postFit cached, cache)
  | none => (true, postFit (runTrackers ()), (key, runTrackers ()) :: cache)

/-- C8: calling detect a second time on a frame with the same identity key
    does not re-invoke the tracker pool (the pool flag of the second call is
    false) and returns exactly the result of the first call, because the
    post-processing applied to the cached measurements is deterministic. -/
theorem gridDetect_second_call_cached {K A R : Type} [DecidableEq K]
    (runTrackers : Unit → A) (postFit : A → R) (key : K)
    (cache : List (K × A)) :
    (gridDetect runTrackers postFit key
        (gridDetect runTrackers postFit key cache).2.2).1 = false
    ∧ (gridDetect runTrackers postFit key
        (gridDetect runTrackers postFit key cache).2.2).2.1
      = (gridDetect runTrackers postFit key cache).2.1 := by
  rcases hl : cache.lookup key with _ | v
  · have h1 : gridDetect runTrackers postFit key cache
        = (true, postFit (runTrackers ()), (key, runTrackers ()) :: cache) := by
      unfold gridDetect
      rw [hl]
    have h2 : List.lookup key ((key, runTrackers ()) :: cache)
        = some (runTrackers ()) := by
      simp [List.lookup]
    have h3 : gridDetect runTrackers postFit key
          ((key, runTrackers ()) :: cache)
        = (false, postFit (runTrackers ()), (key, runTrackers ()) :: cache) := by
      unfold gridDetect
      rw [h2]
    rw [h1]
    exact ⟨by rw [h3], by rw [h3]⟩
  · have h1 : gridDetect runTrackers postFit key cache
        = (false, postFit v, cache) := by
      unfold gridDetect
      rw [hl]
    rw [h1]
    exact ⟨by rw [h1], by rw [h1]⟩

/-- Python int() truncation toward zero applied to a rational, as used for
    the normalized tracking ROI margins. -/
def pyTrunc (q : ℚ) : Int := q.num / q.den

/-- Python xrange(start, stop, step) for a positive step: the arithmetic
    progression from start strictly below stop (empty for a non-positive
    step, where Python xrange would raise). -/
def pyRange (start stop step : Int) : List Int :=
  if 0 < step ∧ start < stop then start :: pyRange (start + step) stop step
  else []
termination_by (stop - start).toNat
decreasing_by omega

/-- Tracker grid construction of GridTrackingRop.__init__ (grid.py lines
    54-72): valid-region bounds t, l, b, r from the sensor margins and the
    normalized tracking ROI, per-axis spacings by Python 2 floor division,
    and one tracker grid coordinate (y, x) for every xrange point, y-major
    as in the nested loops. -/
def gridTrackerCoords (topMargin leftMargin iheight iwidth : Int)
    (tmargin lmargin bmargin rmargin : ℚ) (gy gx : Int) : List (Int × Int) :=
  let t := topMargin + pyTrunc (tmargin * (iheight : ℚ))
  let l := leftMargin + pyTrunc (lmargin * (iwidth : ℚ))
  let b := topMargin + iheight - pyTrunc (bmargin * (iheight : ℚ))
  let r := leftMargin + iwidth - pyTrunc (rmargin * (iwidth : ℚ))
  let yspacing := (b - t).fdiv gy
  let xspacing := (r - l).fdiv gx
  (pyRange (t + yspacing.fdiv 2) b yspacing).flatMap
    (fun y => (pyRange (l + xspacing.fdiv 2) r xspacing).map (fun x => (y, x)))

theorem pyRange_150_900 (c : Int) :
    pyRange (c + 150) (c + 900) 300 = [c + 150, c + 450, c + 750] := by
  rw [pyRange, if_pos (by omega)]
  rw [pyRange, if_pos (by omega)]
  rw [pyRange, if_pos (by omega)]
  rw [pyRange, if_neg (by omega)]
  simp
  omega

/-- C9: the default 3x3 grid over a 900x900 valid region with a zero
    tracking ROI creates exactly 9 trackers whose grid coordinates start at
    offset 150 from the valid-region origin (the sensor margins) and are
    spaced 300 pixels apart in each axis. -/
theorem gridTrackerCoords_default_3x3 (tm lm : Int) :
    gridTrackerCoords tm lm 900 900 0 0 0 0 3 3
      = [(tm + 150, lm + 150), (tm + 150, lm + 450), (tm + 150, lm + 750),
         (tm + 450, lm + 150), (tm + 450, lm + 450), (tm + 450, lm + 750),
         (tm + 750, lm + 150), (tm + 750, lm + 450), (tm + 750, lm + 750)]
    ∧ (gridTrackerCoords tm lm 900 900 0 0 0 0 3 3).length = 9 := by
  have h0 : pyTrunc ((0 : ℚ) * (((900 : Int)) : ℚ)) = 0 := by norm_num [pyTrunc]
  have key : gridTrackerCoords tm lm 900 900 0 0 0 0 3 3
      = (pyRange (tm + 150) (tm + 900) 300).flatMap
          (fun y => (pyRange (lm + 150) (lm + 900) 300).map (fun x => (y, x))) := by
    simp only [gridTrackerCoords, h0]
    have e1 : ∀ c : Int, c + 900 - 0 - (c + 0) = 900 := by intro c; ring
    rw [e1 tm, e1 lm]
    have e2 : (900 : Int).fdiv 3 = 300 := by decide
    rw [e2]
    have e3 : (300 : Int).fdiv 2 = 150 := by decide
    rw [e3]
    have e4 : ∀ c : Int, c + 0 + 150 = c + 150 := by intro c; ring
    have e5 : ∀ c : Int, c + 900 - 0 = c + 900 := by intro c; ring
    rw [e4 tm, e4 lm, e5 tm, e5 lm]
  rw [key, pyRange_150_900 tm, pyRange_150_900 lm]
  constructor
  · simp [List.flatMap]
  · simp [List.flatMap]

/-- Signed 32-bit wraparound, as in numpy int32 arithmetic. -/
def toInt32 (n : Int) : Int := (n + 2147483648) % 4294967296 - 2147483648

theorem toInt32_eq_self (n : Int) (h1 : -2147483648 ≤ n) (h2 : n < 2147483648) :
    toInt32 n = n := by
  rw [toInt32]
  omega

/-- Residual magnitudes computed by the entropy objective (raw.py entropy):
    scratch holds the light frame in int32; dark_weighed is the dark frame
    in int32, multiplied by k_num (with int32 wraparound) and floor-divided
    by k_denom (all operands reached by the search are non-negative, where
    floor and truncation agree); scratch -= dark_weighed is a signed int32
    subtraction with no clamp; numpy.absolute is then taken in int32. -/
def entropyResidual (light dark : List Nat) (kDenom kNum : Nat) : List Int :=
  List.zipWith (fun (l d : Nat) =>
    toInt32 ((Int.natAbs (toInt32 ((l : Int) -
      (toInt32 ((d : Int) * (kNum : Int))).fdiv (kDenom : Int)))) : Int))
    light dark

/-- Modelled from the spec's words for comparison with entropyResidual: the
    residual as light minus the weighted dark clamped pixel-wise to not
    exceed the light value, in absolute value. -/
def entropyResidualSpec (light dark : List Nat) (kDenom kNum : Nat) : List Int :=
  List.zipWith (fun (l d : Nat) =>
    ((Int.natAbs ((l : Int) -
      min (((d : Int) * (kNum : Int)).fdiv (kDenom : Int)) (l : Int))) : Int))
    light dark

/-- Insertion step of an ascending sort on integers, modelling the sort
    inside numpy.unique. -/
def insertSortedInt (x : Int) : List Int → List Int
  | [] => [x]
  | y :: ys => if x ≤ y then x :: y :: ys else y :: insertSortedInt x ys

/-- Ascending sort of a list of integers. -/
def sortAscInt (l : List Int) : List Int := l.foldr insertSortedInt []

/-- numpy.unique with return_counts: the distinct values in ascending order,
    each paired off to its number of occurrences; only the counts are used
    by the entropy objective. -/
def uniqueCounts (l : List Int) : List Nat :=
  ((sortAscInt l).dedup).map (fun v => l.count v)

/-- Histogram counts fed to scipy.stats.entropy by raw.py entropy. -/
def entropyCounts (light dark : List Nat) (kDenom kNum : Nat) : List Nat :=
  uniqueCounts (entropyResidual light dark kDenom kNum)

/-- scipy.stats.entropy of a count list: normalize the counts to a
    probability distribution and return the Shannon entropy -sum p log p
    (modelled over the exact reals). -/
noncomputable def shannonEntropy (counts : List Nat) : ℝ :=
  -((counts.map (fun c => ((c : ℝ) / (counts.map (fun x => (x : ℝ))).sum)
      * Real.log ((c : ℝ) / (counts.map (fun x => (x : ℝ))).sum))).sum)

/-- Entropy objective of raw.py entropy, as the code computes it. -/
noncomputable def rawEntropy (light dark : List Nat) (kDenom kNum : Nat) : ℝ :=
  shannonEntropy (entropyCounts light dark kDenom kNum)

/-- Entropy objective as the spec words it, with the clamped residual. -/
noncomputable def rawEntropySpec (light dark : List Nat) (kDenom kNum : Nat) : ℝ :=
  shannonEntropy (uniqueCounts (entropyResidualSpec light dark kDenom kNum))

theorem zipWith_congr_mem {α β γ : Type} (f g : α → β → γ) :
    ∀ (l1 : List α) (l2 : List β),
      (∀ p ∈ List.zip l1 l2, f p.1 p.2 = g p.1 p.2) →
        List.zipWith f l1 l2 = List.zipWith g l1 l2 := by
  intro l1
  induction l1 with
  | nil => intro l2 _; simp
  | cons a as ih =>
      intro l2 hp
      cases l2 with
      | nil => simp
      | cons b bs =>
          rw [List.zipWith_cons_cons, List.zipWith_cons_cons]
          have h1 : f a b = g a b := hp (a, b) (by simp [List.zip_cons_cons])
          rw [h1, ih bs (fun p hp2 => hp p (by simp [List.zip_cons_cons, hp2]))]

/-- C3 (amended): the entropy objective subtracts the weighted dark from the
    light frame in signed arithmetic with no clamp, takes absolute values,
    and returns the Shannon entropy of the histogram counts; it agrees with
    the spec's clamped formula exactly on inputs where the weighted dark
    never exceeds the light pixel (and no int32 overflow occurs). -/
theorem entropy_agrees_when_unclamped (light dark : List Nat)
    (kDenom kNum : Nat)
    (hl : ∀ l ∈ light, (l : Int) < 2147483648)
    (hd : ∀ p ∈ List.zip light dark,
      (p.2 : Int) * (kNum : Int) < 2147483648
      ∧ ((p.2 : Int) * (kNum : Int)).fdiv (kDenom : Int) ≤ (p.1 : Int)) :
    rawEntropy light dark kDenom kNum = rawEntropySpec light dark kDenom kNum := by
  have hres : entropyResidual light dark kDenom kNum
      = entropyResidualSpec light dark kDenom kNum := by
    rw [entropyResidual, entropyResidualSpec]
    apply zipWith_congr_mem
    intro p hp
    obtain ⟨hov, hle⟩ := hd p hp
    have hpl : p.1 ∈ light := (List.of_mem_zip hp).1
    have hlt : (p.1 : Int) < 2147483648 := hl p.1 hpl
    have hD0 : (0 : Int) ≤ (p.2 : Int) * (kNum : Int) :=
      mul_nonneg (Int.natCast_nonneg p.2) (Int.natCast_nonneg kNum)
    have hDw : toInt32 ((p.2 : Int) * (kNum : Int)) = (p.2 : Int) * (kNum : Int) :=
      toInt32_eq_self _ (by omega) hov
    rw [hDw]
    have hdw0 : (0 : Int) ≤ ((p.2 : Int) * (kNum : Int)).fdiv (kDenom : Int) :=
      Int.fdiv_nonneg hD0 (Int.natCast_nonneg kDenom)
    have hsub : toInt32 ((p.1 : Int) - ((p.2 : Int) * (kNum : Int)).fdiv (kDenom : Int))
        = (p.1 : Int) - ((p.2 : Int) * (kNum : Int)).fdiv (kDenom : Int) :=
      toInt32_eq_self _ (by omega) (by omega)
    rw [hsub]
    have habs : (Int.natAbs ((p.1 : Int)
          - ((p.2 : Int) * (kNum : Int)).fdiv (kDenom : Int)) : Int)
        = (p.1 : Int) - ((p.2 : Int) * (kNum : Int)).fdiv (kDenom : Int) :=
      Int.natAbs_of_nonneg (by omega)
    rw [habs, toInt32_eq_self _ (by omega) (by omega)]
    rw [min_eq_left hle]
    exact habs.symm
  rw [rawEntropy, rawEntropySpec, entropyCounts, hres]

theorem entropy_agrees_when_unclamped_witness :
    (∀ l ∈ ([5] : List Nat), (l : Int) < 2147483648)
    ∧ (∀ p ∈ List.zip ([5] : List Nat) ([1] : List Nat),
        (p.2 : Int) * ((1 : Nat) : Int) < 2147483648
        ∧ ((p.2 : Int) * ((1 : Nat) : Int)).fdiv ((1 : Nat) : Int) ≤ (p.1 : Int))
    ∧ rawEntropy [5] [1] 1 1 = rawEntropySpec [5] [1] 1 1 :=
  ⟨by decide, by decide,
    entropy_agrees_when_unclamped [5] [1] 1 1 (by decide) (by decide)⟩

theorem shannon_pair : shannonEntropy [1, 1] = Real.log 2 := by
  simp only [shannonEntropy, List.map_cons, List.map_nil, List.sum_cons,
    List.sum_nil, Nat.cast_one]
  norm_num
  rw [one_div, Real.log_inv]
  ring

theorem shannon_single : shannonEntropy [2] = 0 := by
  simp only [shannonEntropy, List.map_cons, List.map_nil, List.sum_cons,
    List.sum_nil, Nat.cast_ofNat]
  norm_num

/-- C3 counterexample: on the light frame [0, 0] with dark frame [1, 3] and
    weight 1/1, the code's residuals are the unclamped magnitudes [1, 3]
    (two distinct values, entropy log 2), while the spec's clamped residuals
    are [0, 0] (one value, entropy 0): the entropy objective does not clamp
    the weighted dark, and its value differs from the clamped version. -/
theorem entropy_clamp_counterexample :
    rawEntropy [0, 0] [1, 3] 1 1 ≠ rawEntropySpec [0, 0] [1, 3] 1 1 := by
  have h1 : entropyCounts [0, 0] [1, 3] 1 1 = [1, 1] := by decide
  have h2 : uniqueCounts (entropyResidualSpec [0, 0] [1, 3] 1 1) = [2] := by
    decide
  rw [rawEntropy, rawEntropySpec, h1, h2, shannon_pair, shannon_single]
  exact ne_of_gt (Real.log_pos one_lt_two)

/-- Lexicographic strict comparison of the (entropy, k_num, k_denom) tuples
    returned by the entropy evaluation, as Python compares tuples inside
    min(). -/
def lexLt (a b : ℚ × Nat × Nat) : Bool :=
  decide (a.1 < b.1) || (decide (a.1 = b.1) && (decide (a.2.1 < b.2.1)
    || (decide (a.2.1 = b.2.1) && decide (a.2.2 < b.2.2))))

/-- Python min over a non-empty list of tuples, keeping the earliest element
    among equals (defaulting to (0, 0, 0) on an empty list, where Python
    would raise; all sources call it on non-empty lists). -/
def tupleMin : List (ℚ × Nat × Nat) → ℚ × Nat × Nat
  | [] => (0, 0, 0)
  | x :: xs => xs.foldl (fun a b => if lexLt b a then b else a) x

/-- One refinement round _refine_entropy of raw.py: multiply base and
    denominator by steps and keep the entropy-minimal candidate numerator in
    [base*steps, base*steps + steps) as an (entropy, numerator, denominator)
    tuple.  E is the opaque entropy evaluation (raw.py entropy applied to
    the light and dark frames, as a function of denominator and numerator). -/
def refineEntropy {D : Type} (E : D → Nat → Nat → ℚ) (dark : D)
    (steps denom base : Nat) : ℚ × Nat × Nat :=
  tupleMin ((List.range steps).map
    (fun i => (E dark (denom * steps) (base * steps + i), base * steps + i,
      denom * steps)))

/-- Python min over the ranges list of find_entropy_weights, comparing the
    (entropy, base, denom) keys and keeping the earliest range among key
    ties (the source would fall back to comparing the dark objects
    themselves; ties are broken by list position here). -/
def rangeMin {D : Type} :
    List ((ℚ × Nat × Nat) × D) → Option ((ℚ × Nat × Nat) × D)
  | [] => none
  | x :: xs => some (xs.foldl (fun a b => if lexLt b.1 a.1 then b else a) x)

/-- Main loop of find_entropy_weights (raw.py lines 160-181), fuel-indexed:
    pick the globally best-entropy range, remove it from the list, refine it
    one round; if its denominator reached maxsteps, yield the (dark, base,
    denom) weight and then either stop when base/denom fell below mink or
    reset the remaining ranges to a fresh first round; otherwise re-append
    the refined range and continue.  The generator is modelled as the list
    of yielded triples. -/
def findEntropyWeightsAux {D : Type} [DecidableEq D] (E : D → Nat → Nat → ℚ)
    (steps maxsteps : Nat) (mink : ℚ) :
    Nat → List ((ℚ × Nat × Nat) × D) → List (D × Nat × Nat)
  | 0, _ => []
  | _ + 1, [] => []
  | fuel + 1, r :: rs =>
      match rangeMin (r :: rs) with
      | none => []
      | some best =>
          let rest := (r :: rs).erase best
          let rr := refineEntropy E best.2 steps best.1.2.2 best.1.2.1
          if maxsteps ≤ rr.2.2 then
            (best.2, rr.2.1, rr.2.2) ::
              (if (rr.2.1 : ℚ) / (rr.2.2 : ℚ) < mink then []
               else findEntropyWeightsAux E steps maxsteps mink fuel
                  (rest.map (fun p => (refineEntropy E p.2 steps 1 0, p.2))))
          else findEntropyWeightsAux E steps maxsteps mink fuel
              (rest ++ [(rr, best.2)])

/-- find_entropy_weights: one initial first-round range per dark frame, then
    the scheduling loop, with enough fuel for the run. -/
def find_entropy_weights {D : Type} [DecidableEq D] (E : D → Nat → Nat → ℚ)
    (darks : List D) (steps maxsteps : Nat) (mink : ℚ) (fuel : Nat) :
    List (D × Nat × Nat) :=
  findEntropyWeightsAux E steps maxsteps mink fuel
    (darks.map (fun d => (refineEntropy E d steps 1 0, d)))

theorem findEntropyWeightsAux_shape {D : Type} [DecidableEq D]
    (E : D → Nat → Nat → ℚ) (steps maxsteps : Nat) (mink : ℚ)
    (fuel : Nat) (r : (ℚ × Nat × Nat) × D) (rs : List ((ℚ × Nat × Nat) × D)) :
    (∃ d b dn tail,
      findEntropyWeightsAux E steps maxsteps mink (fuel + 1) (r :: rs)
          = (d, b, dn) :: tail
      ∧ (((b : ℚ) / (dn : ℚ) < mink ∧ tail = [])
         ∨ (¬ ((b : ℚ) / (dn : ℚ) < mink)
            ∧ ∃ rngs, tail = findEntropyWeightsAux E steps maxsteps mink fuel rngs)))
    ∨ (∃ rngs, findEntropyWeightsAux E steps maxsteps mink (fuel + 1) (r :: rs)
        = findEntropyWeightsAux E steps maxsteps mink fuel rngs) := by
  rw [findEntropyWeightsAux]
  simp only [rangeMin]
  by_cases hms : maxsteps ≤ (refineEntropy E
      (rs.foldl (fun a b => if lexLt b.1 a.1 then b else a) r).2 steps
      (rs.foldl (fun a b => if lexLt b.1 a.1 then b else a) r).1.2.2
      (rs.foldl (fun a b => if lexLt b.1 a.1 then b else a) r).1.2.1).2.2
  · rw [if_pos hms]
    by_cases hmink : ((refineEntropy E
        (rs.foldl (fun a b => if lexLt b.1 a.1 then b else a) r).2 steps
        (rs.foldl (fun a b => if lexLt b.1 a.1 then b else a) r).1.2.2
        (rs.foldl (fun a b => if lexLt b.1 a.1 then b else a) r).1.2.1).2.1 : ℚ)
        / ((refineEntropy E
        (rs.foldl (fun a b => if lexLt b.1 a.1 then b else a) r).2 steps
        (rs.foldl (fun a b => if lexLt b.1 a.1 then b else a) r).1.2.2
        (rs.foldl (fun a b => if lexLt b.1 a.1 then b else a) r).1.2.1).2.2 : ℚ)
        < mink
    · rw [if_pos hmink]
      exact Or.inl ⟨_, _, _, [], rfl, Or.inl ⟨hmink, rfl⟩⟩
    · rw [if_neg hmink]
      exact Or.inl ⟨_, _, _, _, rfl, Or.inr ⟨hmink, _, rfl⟩⟩
  · rw [if_neg hms]
    exact Or.inr ⟨_, rfl⟩

/-- C7: once the dark-weight search has emitted a finalized weight whose
    ratio base/denom is below the mink threshold, it emits no further
    triples: any yielded triple whose ratio is below mink is the last
    element of the emitted sequence (the early stop is plain termination of
    the generator, not an error). -/
theorem find_entropy_weights_stop_after_mink {D : Type} [DecidableEq D]
    (E : D → Nat → Nat → ℚ) (darks : List D) (steps maxsteps : Nat)
    (mink : ℚ) (fuel : Nat) (i : Nat) (t : D × Nat × Nat)
    (hget : (find_entropy_weights E darks steps maxsteps mink fuel).get? i
      = some t)
    (hlt : (t.2.1 : ℚ) / (t.2.2 : ℚ) < mink) :
    i + 1 = (find_entropy_weights E darks steps maxsteps mink fuel).length := by
  rw [find_entropy_weights] at hget ⊢
  revert hget
  generalize darks.map (fun d => (refineEntropy E d steps 1 0, d)) = ranges
  revert ranges i
  induction fuel with
  | zero =>
      intro i ranges hget
      simp [findEntropyWeightsAux] at hget
  | succ fuel ih =>
      intro i ranges hget
      cases ranges with
      | nil => simp [findEntropyWeightsAux] at hget
      | cons r rs =>
          rcases findEntropyWeightsAux_shape E steps maxsteps mink fuel r rs with
            ⟨d, b, dn, tail, hout, hcase⟩ | ⟨rngs, hout⟩
          · rw [hout] at hget ⊢
            rcases hcase with ⟨_, htail⟩ | ⟨hnly, rngs, htail⟩
            · subst htail
              cases i with
              | zero => simp
              | succ j => simp at hget
            · subst htail
              cases i with
              | zero =>
                  exfalso
                  have ht : t = (d, b, dn) := by
                    simpa using hget.symm
                  rw [ht] at hlt
                  exact hnly hlt
              | succ j =>
                  have hj := ih j rngs (by simpa using hget)
                  simp only [List.length_cons]
                  omega
          · rw [hout] at hget ⊢
            exact ih i rngs hget

theorem find_entropy_weights_stop_after_mink_witness :
    (find_entropy_weights (fun (_ : Nat) _ n => (n : ℚ)) [0] 8 512 (1/100) 5).get? 0
        = some (0, 0, 512)
    ∧ (((0 : Nat) : ℚ) / ((512 : Nat) : ℚ) < 1/100)
    ∧ 0 + 1 = (find_entropy_weights (fun (_ : Nat) _ n => (n : ℚ))
        [0] 8 512 (1/100) 5).length := by
  have h1 : refineEntropy (fun (_ : Nat) _ n => (n : ℚ)) 0 8 1 0 = (0, 0, 8) := by
    decide
  have h2 : refineEntropy (fun (_ : Nat) _ n => (n : ℚ)) 0 8 8 0 = (0, 0, 64) := by
    decide
  have h3 : refineEntropy (fun (_ : Nat) _ n => (n : ℚ)) 0 8 64 0 = (0, 0, 512) := by
    decide
  have heval : find_entropy_weights (fun (_ : Nat) _ n => (n : ℚ)) [0] 8 512 (1/100) 5
      = [(0, 0, 512)] := by
    rw [find_entropy_weights, List.map_cons, List.map_nil, h1]
    rw [findEntropyWeightsAux]
    simp only [rangeMin, List.foldl_nil, List.erase_cons_head, h2]
    norm_num
    rw [findEntropyWeightsAux]
    simp only [rangeMin, List.foldl_nil, List.erase_cons_head, h3]
    norm_num
  refine ⟨by rw [heval]; rfl, by norm_num, ?_⟩
  exact find_entropy_weights_stop_after_mink (fun (_ : Nat) _ n => (n : ℚ))
    [0] 8 512 (1/100) 5 0 (0, 0, 512) (by rw [heval]; rfl) (by norm_num)
